import Mathlib

/-!
Verification development for the thrivebot retrieval pipeline.

Shallow embedding of the three core components of the repository:
the text chunker (`app/ingestion/chunker.py`), the FAISS-backed vector
store (`app/retrieval/vector_store.py`), and the RAG retriever
(`app/retrieval/retriever.py`).  Machine floats are modelled by real
numbers; external collaborators (the Gemini embedding provider, the
tiktoken tokenizer, the FAISS index internals, the filesystem) are
modelled at their documented interfaces, as noted on each definition.
-/

namespace ThriveBot

/-! ## Chunker (`app/ingestion/chunker.py`) -/

/-- Whitespace as matched by Python's regex class and by `str.strip`. -/
def isPySpace (c : Char) : Bool :=
  c == ' ' || c == '\t' || c == '\n' || c == '\r' || c == '\x0b' || c == '\x0c'

/-- Python `str.strip()`: drop whitespace from both ends. -/
def pyStrip (s : String) : String :=
  String.mk (((s.data.dropWhile isPySpace).reverse.dropWhile isPySpace).reverse)

/-- Index of the last occurrence of a character in a list, if any. -/
def lastIdxOf (ch : Char) : List Char → Option Nat
  | [] => none
  | c :: cs =>
    match lastIdxOf ch cs with
    | some i => some (i + 1)
    | none => if c = ch then some 0 else none

/-- Worker for `splitIntoParagraphs`: Python `re.split` with the pattern
consisting of a newline, a greedy whitespace run, and a newline.  A match
starts at a newline and, when the maximal whitespace run that follows
contains another newline, consumes through the last newline of that run
(greedy star with backtracking).  The accumulator holds the current piece
reversed; the fuel argument bounds the recursion by the input length. -/
def splitParasAux : Nat → List Char → List Char → List (List Char)
  | _, acc, [] => [acc.reverse]
  | 0, acc, rest => [acc.reverse ++ rest]
  | fuel + 1, acc, c :: rest =>
    if c = '\n' then
      let ws := rest.takeWhile isPySpace
      match lastIdxOf '\n' ws with
      | some i =>
        acc.reverse :: splitParasAux fuel [] (ws.drop (i + 1) ++ rest.drop ws.length)
      | none => splitParasAux fuel (c :: acc) rest
    else splitParasAux fuel (c :: acc) rest

/-- `TextChunker._split_into_paragraphs`: split on blank-line boundaries,
strip each piece, drop empty pieces. -/
def splitIntoParagraphs (text : String) : List String :=
  ((splitParasAux text.data.length [] text.data).map
    (fun cs => pyStrip (String.mk cs))).filter (fun s => s ≠ "")

/-- Worker for `splitIntoSentences`: Python `re.split` with a lookbehind
for sentence-ending punctuation followed by a greedy whitespace run.  The
head of the accumulator is the previously consumed character. -/
def splitSentAux : Nat → List Char → List Char → List (List Char)
  | _, acc, [] => [acc.reverse]
  | 0, acc, rest => [acc.reverse ++ rest]
  | fuel + 1, acc, c :: rest =>
    if isPySpace c &&
        (match acc with
         | p :: _ => p == '.' || p == '!' || p == '?'
         | [] => false) then
      acc.reverse :: splitSentAux fuel [] (rest.drop (rest.takeWhile isPySpace).length)
    else splitSentAux fuel (c :: acc) rest

/-- `TextChunker._split_into_sentences`. -/
def splitIntoSentences (text : String) : List String :=
  ((splitSentAux text.data.length [] text.data).map
    (fun cs => pyStrip (String.mk cs))).filter (fun s => s ≠ "")

/-- A produced chunk (`TextChunk` dataclass).  The computed token count
that the source merges into the metadata dict is kept as a field. -/
structure TextChunk where
  content : String
  source : String
  chunkIndex : Nat
  tokenCount : Nat
  metadata : List (String × String)
deriving Repr, DecidableEq

/-- Chunker configuration (`TextChunker.__init__`). -/
structure TextChunker where
  chunkSize : Nat
  chunkOverlap : Nat
deriving Repr, DecidableEq

/-- `TextChunker.count_tokens` in its heuristic branch: the tiktoken
tokenizer is an external library; when it is unavailable the source
counts `len(text) // 4`.  That fallback branch is the one embedded. -/
def countTokens (_c : TextChunker) (s : String) : Nat := s.length / 4

/-- Python `" ".join(parts)`. -/
def joinParts : List String → String
  | [] => ""
  | [p] => p
  | p :: q :: rest => p ++ " " ++ joinParts (q :: rest)

/-- Python `s[-chars:]`: for a positive count, the last `chars`
characters (the whole string when it is no longer than `chars`); for a
count of zero, `s[-0:]` is `s[0:]`, the whole string. -/
def pyTakeLast (s : String) (chars : Nat) : String :=
  if chars = 0 then s else String.mk (s.data.drop (s.data.length - chars))

/-- The overlap tail `TextChunker._get_overlap_text` extracts from a
flushed accumulator with content `s` (heuristic branch): the Python slice
`s[-chars:]` when `len(s) > chars`, else the whole text, where
`chars = chunk_overlap * 4`. -/
def overlapTailOfContent (c : TextChunker) (s : String) : String :=
  if s.length > c.chunkOverlap * 4 then pyTakeLast s (c.chunkOverlap * 4) else s

/-- `TextChunker._get_overlap_text` on the accumulated parts. -/
def getOverlapText (c : TextChunker) (parts : List String) : String :=
  if parts = [] then "" else overlapTailOfContent c (joinParts parts)

/-- `TextChunker._create_chunk`. -/
def createChunk (c : TextChunker) (parts : List String) (source : String)
    (chunkIndex : Nat) (meta : List (String × String)) : TextChunk :=
  { content := joinParts parts
    source := source
    chunkIndex := chunkIndex
    tokenCount := countTokens c (joinParts parts)
    metadata := meta }

/-- The sentence accumulation loop of `TextChunker._split_large_paragraph`. -/
def sentenceLoop (c : TextChunker) (src : String) (meta : List (String × String))
    (startIdx : Nat) : List String → List String → Nat → List TextChunk → List TextChunk
  | [], acc, _, out =>
    if acc ≠ [] then out ++ [createChunk c acc src (startIdx + out.length) meta] else out
  | s :: rest, acc, curTok, out =>
    let st := countTokens c s
    if curTok + st > c.chunkSize then
      let out1 := if acc ≠ [] then out ++ [createChunk c acc src (startIdx + out.length) meta] else out
      sentenceLoop c src meta startIdx rest [s] st out1
    else
      sentenceLoop c src meta startIdx rest (acc ++ [s]) (curTok + st) out

/-- `TextChunker._split_large_paragraph`. -/
def splitLargeParagraph (c : TextChunker) (para src : String) (startIdx : Nat)
    (meta : List (String × String)) : List TextChunk :=
  sentenceLoop c src meta startIdx (splitIntoSentences para) [] 0 []

/-- The paragraph accumulation loop of `TextChunker.chunk_text`,
including the final flush.  In the oversized-paragraph branch the caller
overwrites each returned chunk's index with the current output length
before appending, exactly as the source does. -/
def chunkLoop (c : TextChunker) (src : String) (meta : List (String × String)) :
    List String → List String → Nat → List TextChunk → List TextChunk
  | [], acc, _, out =>
    if acc ≠ [] then out ++ [createChunk c acc src out.length meta] else out
  | para :: rest, acc, curTok, out =>
    let pt := countTokens c para
    if pt > c.chunkSize then
      let out1 := if acc ≠ [] then out ++ [createChunk c acc src out.length meta] else out
      let cur1 := if acc ≠ [] then 0 else curTok
      let scs := splitLargeParagraph c para src out1.length meta
      let out2 := scs.foldl (fun os ch => os ++ [{ ch with chunkIndex := os.length }]) out1
      chunkLoop c src meta rest [] cur1 out2
    else if curTok + pt > c.chunkSize then
      let out1 := if acc ≠ [] then out ++ [createChunk c acc src out.length meta] else out
      let ov := getOverlapText c acc
      let acc1 := if ov ≠ "" then [ov, para] else [para]
      chunkLoop c src meta rest acc1 (countTokens c (joinParts acc1)) out1
    else
      chunkLoop c src meta rest (acc ++ [para]) (curTok + pt) out

/-- `TextChunker.chunk_text`. -/
def chunkText (c : TextChunker) (text source : String)
    (meta : List (String × String)) : List TextChunk :=
  if pyStrip text = "" then []
  else chunkLoop c source meta (splitIntoParagraphs text) [] 0 []

/-- The overlap tail as the specification's words describe it for the
heuristic counter: the last `chunk_overlap * 4` characters of the flushed
text, or the whole text when it is shorter than that.  Written from the
spec to be compared against `getOverlapText`, which is written from the
source. -/
def specOverlapTail (c : TextChunker) (s : String) : String :=
  if s.length ≤ c.chunkOverlap * 4 then s
  else String.mk (s.data.drop (s.data.length - c.chunkOverlap * 4))

/-- The successive-chunk overlap property: the later chunk's content
begins with the overlap tail extracted from the earlier chunk's
content. -/
def OverlapChain (c : TextChunker) (a b : TextChunk) : Prop :=
  ∃ t, b.content = overlapTailOfContent c a.content ++ t

/-! ## Vector store (`app/retrieval/vector_store.py`)

Machine `float32` arithmetic is modelled over the real numbers; vectors
are lists of reals. -/

/-- A stored document payload: the dicts the source passes to `add`
always carry these keys (`content`, `source`, `metadata`). -/
structure Doc where
  content : String
  source : String
  metadata : List (String × String)
deriving Repr, DecidableEq

/-- Sum of squares of the entries of a vector. -/
def sumSq (v : List ℝ) : ℝ := (v.map fun x => x * x).sum

/-- Euclidean norm of a vector, as computed by `np.linalg.norm`. -/
noncomputable def l2norm (v : List ℝ) : ℝ := Real.sqrt (sumSq v)

/-- `FAISSVectorStore._normalize` on one row: divide by the norm floored
at `1e-10` (`np.maximum(norms, 1e-10)`). -/
noncomputable def normalize (v : List ℝ) : List ℝ :=
  v.map fun x => x / max (l2norm v) 1e-10

/-- Inner product, as computed by the flat inner-product index. -/
def dot (a b : List ℝ) : ℝ := ((a.zip b).map fun p => p.1 * p.2).sum

/-- `FAISSVectorStore` state: the configured dimension, the vectors held
by the underlying `faiss.IndexFlatIP` (in insertion order), and the
parallel `documents` payload list. -/
structure FAISSVectorStore where
  dimension : Nat
  vecs : List (List ℝ)
  documents : List Doc

/-- The ranking order used by the flat inner-product index: higher score
first, equal scores by lower (earlier-inserted) position first. -/
def faissRel (a b : Nat × ℝ) : Prop := b.2 < a.2 ∨ (a.2 = b.2 ∧ a.1 ≤ b.1)

noncomputable instance : DecidableRel faissRel := fun a b => by
  unfold faissRel; infer_instance

instance : IsTotal (Nat × ℝ) faissRel where
  total a b := by
    unfold faissRel
    rcases lt_trichotomy a.2 b.2 with h | h | h
    · exact Or.inr (Or.inl h)
    · rcases Nat.le_total a.1 b.1 with h1 | h1
      · exact Or.inl (Or.inr ⟨h, h1⟩)
      · exact Or.inr (Or.inr ⟨h.symm, h1⟩)
    · exact Or.inl (Or.inl h)

instance : IsTrans (Nat × ℝ) faissRel where
  trans a b c hab hbc := by
    unfold faissRel at *
    rcases hab with h1 | ⟨h1, h1'⟩ <;> rcases hbc with h2 | ⟨h2, h2'⟩
    · exact Or.inl (h2.trans h1)
    · exact Or.inl (h2 ▸ h1)
    · exact Or.inl (h1 ▸ h2)
    · exact Or.inr ⟨h1.trans h2, h1'.trans h2'⟩

/-- Model of `faiss.IndexFlatIP.search` on a single query: exact inner
products against every stored vector, ranked by score descending with
ties broken by insertion order (the documented behaviour of the flat
index), clamped to `k` results.  Entries are tagged with their insertion
position, which the source uses to look up the payload. -/
noncomputable def faissSearchIdx (vecs : List (List ℝ)) (q : List ℝ) (k : Nat) :
    List (Nat × ℝ) :=
  (((List.range vecs.length).zip (vecs.map (dot q))).insertionSort faissRel).take k

/-- `FAISSVectorStore.search`: empty result on an empty index, query
normalization, top-k clamping, then payload lookup guarded by a bounds
check on the returned position. -/
noncomputable def search (s : FAISSVectorStore) (q : List ℝ) (topK : Nat) :
    List (Doc × ℝ) :=
  if s.vecs.length = 0 then []
  else
    (faissSearchIdx s.vecs (normalize q) (min topK s.vecs.length)).filterMap
      fun p => (s.documents[p.1]?).map fun d => (d, p.2)

/-- `FAISSVectorStore.add`: count mismatch raises `ValueError`, empty
input is a no-op, otherwise the normalized vectors and the payloads are
appended. -/
noncomputable def add (s : FAISSVectorStore) (embs : List (List ℝ)) (docs : List Doc) :
    Except String FAISSVectorStore :=
  if embs.length ≠ docs.length then
    .error "Number of embeddings must match number of documents"
  else if embs.length = 0 then .ok s
  else .ok { s with vecs := s.vecs ++ embs.map normalize, documents := s.documents ++ docs }

/-- `FAISSVectorStore.clear`: re-initialize an empty index of the same
dimension and drop the payloads. -/
def clear (s : FAISSVectorStore) : FAISSVectorStore :=
  { s with vecs := [], documents := [] }

/-- The pair of co-located artifacts `save` writes: the serialized index
(its vectors, in order) and the pickled payload list.  Serialization by
`faiss.write_index` and `pickle` is external and modelled as faithful. -/
structure StoreBlob where
  vecs : List (List ℝ)
  documents : List Doc

/-- `FAISSVectorStore.save`. -/
def save (s : FAISSVectorStore) : StoreBlob := ⟨s.vecs, s.documents⟩

/-- `FAISSVectorStore.load` (success path): replace the index and the
payload list with the deserialized artifacts, keeping the configured
dimension. -/
def load (s : FAISSVectorStore) (b : StoreBlob) : FAISSVectorStore :=
  { s with vecs := b.vecs, documents := b.documents }

/-- A freshly constructed store of the given dimension. -/
def freshStore (d : Nat) : FAISSVectorStore := ⟨d, [], []⟩

/-! ## Retriever (`app/retrieval/retriever.py`) -/

/-- Failure of the external embedding provider after its retry budget
(three attempts in `GeminiEmbedder`) is exhausted. -/
inductive EmbedError where
  | providerFailure : EmbedError
deriving Repr, DecidableEq

/-- One formatted result dict built by `RAGRetriever.retrieve`. -/
structure RetrievedDoc where
  content : String
  source : String
  score : ℝ
  metadata : List (String × String)

/-- `RAGRetriever` configuration and collaborators; the embedder is
passed to `retrieve` as a function. -/
structure RAGRetriever where
  vectorStore : FAISSVectorStore
  topK : Nat
  scoreThreshold : ℝ

/-- The effective `k`: Python `top_k or self.top_k` falls back to the
default both when the override is absent and when it is `0`. -/
def retrieveK (r : RAGRetriever) (topK : Option Nat) : Nat :=
  match topK with
  | none => r.topK
  | some n => if n = 0 then r.topK else n

/-- `RAGRetriever.retrieve`: empty result on an empty or whitespace
query; embed the query via the external provider, search, and keep the
results at or above the score threshold.  The source wraps the body in a
catch-all `except` that logs and returns `[]`, so a failed embedding
yields an empty list rather than a propagated error. -/
noncomputable def retrieve (r : RAGRetriever) (embed : String → Except EmbedError (List ℝ))
    (query : String) (topK : Option Nat) : List RetrievedDoc :=
  if pyStrip query = "" then []
  else
    match embed query with
    | .error _ => []
    | .ok emb =>
      (search r.vectorStore emb (retrieveK r topK)).filterMap fun p =>
        if r.scoreThreshold ≤ p.2 then
          some ⟨p.1.content, p.1.source, p.2, p.1.metadata⟩
        else none

/-- The sentinel `format_context` returns for an empty result list. -/
def noInfoSentinel : String := "No relevant information found in the knowledge base."

/-- The labelled block `format_context` builds for result number `i`
(1-based).  The `f"{score:.2f}"` float rendering is performed by the
Python runtime and is abstracted as the `render` argument. -/
def contextPiece (render : ℝ → String) (i : Nat) (r : RetrievedDoc) : String :=
  "\n[Source " ++ toString i ++ ": " ++ r.source ++ "]\nRelevance: "
    ++ render r.score ++ "\nContent: " ++ r.content ++ "\n"

/-- The approximate token cost of a block: `len(piece) // 4`. -/
def estTokens (s : String) : Nat := s.length / 4

/-- The accumulation loop of `format_context`: include blocks in order,
stopping entirely (`break`) at the first block whose estimated cost would
push the running total over the budget. -/
def takeBudget (maxTokens : Nat) : Nat → List String → List String
  | _, [] => []
  | cur, p :: ps =>
    if cur + estTokens p > maxTokens then []
    else p :: takeBudget maxTokens (cur + estTokens p) ps

/-- The blocks for a result list, numbered from 1 (`enumerate(results, 1)`). -/
def blocksOf (render : ℝ → String) (results : List RetrievedDoc) : List String :=
  results.enum.map fun p => contextPiece render (p.1 + 1) p.2

/-- `RAGRetriever.format_context`. -/
def formatContext (render : ℝ → String) (results : List RetrievedDoc)
    (maxTokens : Nat) : String :=
  if results.isEmpty then noInfoSentinel
  else String.intercalate "\n---\n" (takeBudget maxTokens 0 (blocksOf render results))

/-! ## Helper lemmas -/

theorem takeBudget_spec (maxTokens : Nat) :
    ∀ (blocks : List String) (cur : Nat), cur ≤ maxTokens →
      ∃ m, m ≤ blocks.length ∧ takeBudget maxTokens cur blocks = blocks.take m ∧
        cur + ((blocks.take m).map estTokens).sum ≤ maxTokens ∧
        ∀ hm : m < blocks.length,
          maxTokens < cur + ((blocks.take m).map estTokens).sum
            + estTokens (blocks.get ⟨m, hm⟩)
  | [], cur, hcur => by
    refine ⟨0, by simp, rfl, by simpa using hcur, fun hm => by simp at hm⟩
  | p :: ps, cur, hcur => by
    by_cases hc : cur + estTokens p > maxTokens
    · refine ⟨0, by simp, ?_, by simpa using hcur, fun hm => ?_⟩
      · simp [takeBudget, if_pos hc]
      · simpa using hc
    · push_neg at hc
      obtain ⟨m, hm_le, heq, hsum, hstop⟩ := takeBudget_spec maxTokens ps (cur + estTokens p) hc
      refine ⟨m + 1, by simpa using hm_le, ?_, ?_, ?_⟩
      · simp [takeBudget, not_lt.mpr hc, heq]
      · simpa [List.take_cons, Nat.add_assoc] using hsum
      · intro hm
        have hm' : m < ps.length := by simpa using hm
        have := hstop hm'
        simpa [List.take_cons, Nat.add_assoc] using this

theorem length_filterMap_of_isSome {α β : Type*} (f : α → Option β) :
    ∀ l : List α, (∀ a ∈ l, (f a).isSome) → (l.filterMap f).length = l.length
  | [], _ => rfl
  | a :: l, h => by
    have ha := h a (List.mem_cons_self a l)
    obtain ⟨b, hb⟩ := Option.isSome_iff_exists.mp ha
    have ih := length_filterMap_of_isSome f l (fun x hx => h x (List.mem_cons_of_mem a hx))
    simp [List.filterMap_cons, hb, ih]

theorem faissSearchIdx_mem_lt (vecs : List (List ℝ)) (q : List ℝ) (k : Nat) :
    ∀ p ∈ faissSearchIdx vecs q k, p.1 < vecs.length := by
  intro p hp
  have h1 : p ∈ ((List.range vecs.length).zip (vecs.map (dot q))).insertionSort faissRel :=
    (List.take_sublist _ _).mem hp
  have h2 : p ∈ (List.range vecs.length).zip (vecs.map (dot q)) :=
    (List.perm_insertionSort faissRel _).mem_iff.mp h1
  have h3 : p.1 ∈ List.range vecs.length := (List.of_mem_zip h2).1
  simpa using h3

theorem faissSearchIdx_length (vecs : List (List ℝ)) (q : List ℝ) (k : Nat)
    (hk : k ≤ vecs.length) : (faissSearchIdx vecs q k).length = k := by
  unfold faissSearchIdx
  rw [List.length_take, List.length_insertionSort, List.length_zip]
  simp [Nat.min_eq_left, hk]

theorem faissSearchIdx_pairwise (vecs : List (List ℝ)) (q : List ℝ) (k : Nat) :
    (faissSearchIdx vecs q k).Pairwise
      (fun a b => b.2 < a.2 ∨ (a.2 = b.2 ∧ a.1 < b.1)) := by
  set zp := (List.range vecs.length).zip (vecs.map (dot q)) with hzp
  have hsorted : List.Sorted faissRel (zp.insertionSort faissRel) :=
    List.sorted_insertionSort faissRel zp
  have htake : (faissSearchIdx vecs q k).Pairwise faissRel :=
    List.Pairwise.sublist (List.take_sublist _ _) hsorted
  have hfst : (zp.map Prod.fst).Nodup := by
    rw [hzp, List.map_fst_zip]
    · exact List.nodup_range _
    · simp
  have hnd1 : ((zp.insertionSort faissRel).map Prod.fst).Nodup :=
    (((List.perm_insertionSort faissRel zp).map Prod.fst).symm).nodup hfst
  have hnd2 : ((faissSearchIdx vecs q k).map Prod.fst).Nodup := by
    have hsub : ((zp.insertionSort faissRel).take k).Sublist (zp.insertionSort faissRel) :=
      List.take_sublist _ _
    exact (hsub.map Prod.fst).nodup hnd1
  have hne : (faissSearchIdx vecs q k).Pairwise (fun a b => a.1 ≠ b.1) :=
    List.pairwise_map.mp hnd2
  refine (htake.and hne).imp ?_
  rintro a b ⟨hr | ⟨heq, hle⟩, hne'⟩
  · exact Or.inl hr
  · exact Or.inr ⟨heq, lt_of_le_of_ne hle hne'⟩

theorem filterMap_threshold_eq (threshold : ℝ) (l : List (Doc × ℝ)) :
    (l.filterMap fun p =>
        if threshold ≤ p.2 then
          some (⟨p.1.content, p.1.source, p.2, p.1.metadata⟩ : RetrievedDoc)
        else none)
      = (l.filter fun p => decide (threshold ≤ p.2)).map
          fun p => ⟨p.1.content, p.1.source, p.2, p.1.metadata⟩ := by
  induction l with
  | nil => rfl
  | cons p l ih =>
    by_cases hp : threshold ≤ p.2 <;>
      simp [List.filterMap_cons, List.filter_cons, hp, ih]

/-! ## C6: save/load round trip -/

/-- C6: saving an index and loading the saved artifacts into a fresh
index of the same dimension reproduces identical search results (same
payloads, same ranking, same scores) for every query vector and k. -/
theorem save_load_roundtrip (s : FAISSVectorStore) (q : List ℝ) (k : Nat) :
    search (load (freshStore s.dimension) (save s)) q k = search s q k := by
  cases s; rfl

/-! ## C2 and C10: format_context -/

/-- C2: for a non-empty result list, `format_context` includes a prefix
of the formatted blocks in their given order, stops entirely at the first
block whose estimated token cost would push the cumulative estimate over
the budget, and the included blocks' estimated costs sum to at most
`max_tokens`. -/
theorem format_context_budget (render : ℝ → String) (results : List RetrievedDoc)
    (maxTokens : Nat) (h : results ≠ []) :
    ∃ m, m ≤ (blocksOf render results).length ∧
      takeBudget maxTokens 0 (blocksOf render results) = (blocksOf render results).take m ∧
      formatContext render results maxTokens =
        String.intercalate "\n---\n" ((blocksOf render results).take m) ∧
      (((blocksOf render results).take m).map estTokens).sum ≤ maxTokens ∧
      ∀ hm : m < (blocksOf render results).length,
        maxTokens < (((blocksOf render results).take m).map estTokens).sum
          + estTokens ((blocksOf render results).get ⟨m, hm⟩) := by
  obtain ⟨m, hm_le, heq, hsum, hstop⟩ :=
    takeBudget_spec maxTokens (blocksOf render results) 0 (Nat.zero_le _)
  refine ⟨m, hm_le, heq, ?_, by simpa using hsum, fun hm => by simpa using hstop hm⟩
  have hne : results.isEmpty = false := by
    cases results with
    | nil => exact absurd rfl h
    | cons a l => rfl
  rw [formatContext, hne, heq]
  rfl

/-- Witness for C2 at a concrete one-element result list. -/
theorem format_context_budget_witness :
    ([(⟨"c", "s", 0, []⟩ : RetrievedDoc)] ≠ []) ∧
    (∃ m, m ≤ (blocksOf (fun _ => "0.00") [(⟨"c", "s", 0, []⟩ : RetrievedDoc)]).length ∧
      takeBudget 100 0 (blocksOf (fun _ => "0.00") [⟨"c", "s", 0, []⟩])
        = (blocksOf (fun _ => "0.00") [⟨"c", "s", 0, []⟩]).take m ∧
      formatContext (fun _ => "0.00") [⟨"c", "s", 0, []⟩] 100 =
        String.intercalate "\n---\n" ((blocksOf (fun _ => "0.00") [⟨"c", "s", 0, []⟩]).take m) ∧
      (((blocksOf (fun _ => "0.00") [⟨"c", "s", 0, []⟩]).take m).map estTokens).sum ≤ 100 ∧
      ∀ hm : m < (blocksOf (fun _ => "0.00") [⟨"c", "s", 0, []⟩]).length,
        100 < (((blocksOf (fun _ => "0.00") [⟨"c", "s", 0, []⟩]).take m).map estTokens).sum
          + estTokens ((blocksOf (fun _ => "0.00") [⟨"c", "s", 0, []⟩]).get ⟨m, hm⟩)) :=
  ⟨by simp, format_context_budget (fun _ => "0.00") [⟨"c", "s", 0, []⟩] 100 (by simp)⟩

/-- C10: when the first block alone already exceeds the budget,
`format_context` on a non-empty result list returns the empty string,
while the no-information sentinel is returned exactly for the empty
result list (and differs from the empty string). -/
theorem format_context_oversized_first (render : ℝ → String) (r : RetrievedDoc)
    (rest : List RetrievedDoc) (maxTokens : Nat)
    (h : maxTokens < estTokens (contextPiece render 1 r)) :
    formatContext render (r :: rest) maxTokens = "" ∧
    formatContext render [] maxTokens = noInfoSentinel ∧
    noInfoSentinel ≠ "" := by
  refine ⟨?_, rfl, by decide⟩
  have hblocks : blocksOf render (r :: rest)
      = contextPiece render 1 r :: (List.enumFrom 1 rest).map fun p => contextPiece render (p.1 + 1) p.2 := by
    simp [blocksOf, List.enum_cons]
  rw [formatContext]
  have hne : (r :: rest).isEmpty = false := rfl
  rw [hne, hblocks]
  have hgt : 0 + estTokens (contextPiece render 1 r) > maxTokens := by simpa using h
  simp only [takeBudget]
  rw [if_pos hgt]
  rfl

/-- Witness for C10: a block of more than four characters against a zero
budget. -/
theorem format_context_oversized_first_witness :
    (0 < estTokens (contextPiece (fun _ => "0.00") 1 ⟨"content", "src", 0, []⟩)) ∧
    (formatContext (fun _ => "0.00") [⟨"content", "src", 0, []⟩] 0 = "" ∧
      formatContext (fun _ => "0.00") [] 0 = noInfoSentinel ∧
      noInfoSentinel ≠ "") :=
  ⟨by decide, format_context_oversized_first (fun _ => "0.00") ⟨"content", "src", 0, []⟩ [] 0 (by decide)⟩

/-! ## C3 and C4: search -/

/-- C3: on an index holding `n` aligned entries, `search` returns exactly
`min k n` results for every query vector and every `k`; in particular it
returns the empty list on an empty index. -/
theorem search_length_min (s : FAISSVectorStore) (q : List ℝ) (k : Nat)
    (h : s.documents.length = s.vecs.length) :
    (search s q k).length = min k s.vecs.length := by
  by_cases h0 : s.vecs.length = 0
  · simp [search, h0]
  · rw [search, if_neg h0]
    have hk : min k s.vecs.length ≤ s.vecs.length := Nat.min_le_right _ _
    rw [length_filterMap_of_isSome]
    · exact faissSearchIdx_length _ _ _ hk
    · intro p hp
      have hlt : p.1 < s.documents.length := h ▸ faissSearchIdx_mem_lt _ _ _ p hp
      simp [List.getElem?_eq_getElem hlt]

/-- Witness for C3 at the empty index. -/
theorem search_length_min_witness :
    ((freshStore 2).documents.length = (freshStore 2).vecs.length) ∧
    (search (freshStore 2) [1, 0] 5).length = min 5 (freshStore 2).vecs.length :=
  ⟨rfl, search_length_min (freshStore 2) [1, 0] 5 rfl⟩

/-- C4: search results are sorted by score non-increasing, and at the
level of the underlying index positions the ranking is strictly ordered:
higher score first, with equal scores ordered by insertion position. -/
theorem search_ranking_sorted (s : FAISSVectorStore) (q : List ℝ) (k : Nat) :
    ((search s q k).map Prod.snd).Pairwise (fun a b => b ≤ a) ∧
    (faissSearchIdx s.vecs (normalize q) (min k s.vecs.length)).Pairwise
      (fun a b => b.2 < a.2 ∨ (a.2 = b.2 ∧ a.1 < b.1)) := by
  refine ⟨?_, faissSearchIdx_pairwise _ _ _⟩
  by_cases h0 : s.vecs.length = 0
  · simp [search, h0]
  · rw [search, if_neg h0]
    rw [List.pairwise_map]
    rw [List.pairwise_filterMap]
    have hpw := faissSearchIdx_pairwise s.vecs (normalize q) (min k s.vecs.length)
    refine hpw.imp ?_
    intro a b hab
    intro x hx y hy
    have hx2 : x.2 = a.2 := by
      rcases Option.map_eq_some'.mp hx with ⟨d, _, rfl⟩
      rfl
    have hy2 : y.2 = b.2 := by
      rcases Option.map_eq_some'.mp hy with ⟨d, _, rfl⟩
      rfl
    rw [hx2, hy2]
    rcases hab with hlt | ⟨heq, _⟩
    · exact le_of_lt hlt
    · exact le_of_eq heq.symm

/-! ## C5 and C1: retrieve -/

/-- C5: when the query is non-empty and the embedding call succeeds,
`retrieve` returns exactly the search results whose score is at or above
the threshold, in the order `search` produced them, and no returned
result scores below the threshold. -/
theorem retrieve_threshold_filter (r : RAGRetriever)
    (embed : String → Except EmbedError (List ℝ)) (q : String) (tk : Option Nat)
    (emb : List ℝ) (hq : pyStrip q ≠ "") (he : embed q = .ok emb) :
    retrieve r embed q tk =
      ((search r.vectorStore emb (retrieveK r tk)).filter
          fun p => decide (r.scoreThreshold ≤ p.2)).map
        (fun p => ⟨p.1.content, p.1.source, p.2, p.1.metadata⟩) ∧
    ∀ res ∈ retrieve r embed q tk, r.scoreThreshold ≤ res.score := by
  have hr : retrieve r embed q tk
      = (search r.vectorStore emb (retrieveK r tk)).filterMap fun p =>
          if r.scoreThreshold ≤ p.2 then
            some ⟨p.1.content, p.1.source, p.2, p.1.metadata⟩
          else none := by
    unfold retrieve
    rw [if_neg hq, he]
  constructor
  · rw [hr, filterMap_threshold_eq]
  · intro res hres
    rw [hr] at hres
    obtain ⟨p, _, hsome⟩ := List.mem_filterMap.mp hres
    by_cases hth : r.scoreThreshold ≤ p.2
    · rw [if_pos hth] at hsome
      obtain rfl := Option.some.inj hsome
      exact hth
    · rw [if_neg hth] at hsome
      exact absurd hsome (by simp)

/-- Witness for C5 at a concrete query, embedder and store. -/
theorem retrieve_threshold_filter_witness :
    (pyStrip "hi" ≠ "") ∧
    ((fun _ : String => (.ok [1, 0] : Except EmbedError (List ℝ))) "hi" = .ok [1, 0]) ∧
    (retrieve ⟨freshStore 2, 5, 0⟩ (fun _ => .ok [1, 0]) "hi" none =
      ((search (⟨freshStore 2, 5, 0⟩ : RAGRetriever).vectorStore [1, 0]
          (retrieveK ⟨freshStore 2, 5, 0⟩ none)).filter
          fun p => decide ((⟨freshStore 2, 5, 0⟩ : RAGRetriever).scoreThreshold ≤ p.2)).map
        (fun p => ⟨p.1.content, p.1.source, p.2, p.1.metadata⟩) ∧
    ∀ res ∈ retrieve ⟨freshStore 2, 5, 0⟩ (fun _ => .ok [1, 0]) "hi" none,
      (⟨freshStore 2, 5, 0⟩ : RAGRetriever).scoreThreshold ≤ res.score) :=
  ⟨by decide, rfl,
    retrieve_threshold_filter ⟨freshStore 2, 5, 0⟩ (fun _ => .ok [1, 0]) "hi" none [1, 0]
      (by decide) rfl⟩

/-- C1 counterexample: with a non-empty query and a non-empty index, a
failing embedding call makes `retrieve` return the empty list instead of
propagating a typed error — the catch-all handler swallows it. -/
theorem c1_retrieve_error_counterexample :
    retrieve ⟨⟨2, [[1, 0]], [⟨"cats", "doc1.txt", []⟩]⟩, 5, (3 : ℝ) / 10⟩
      (fun _ => .error .providerFailure) "hello" none = [] ∧
    pyStrip "hello" ≠ "" ∧
    (⟨⟨2, [[1, 0]], [⟨"cats", "doc1.txt", []⟩]⟩, 5, (3 : ℝ) / 10⟩
        : RAGRetriever).vectorStore.vecs ≠ [] := by
  refine ⟨rfl, by decide, by simp⟩

/-- C1 (amended): whenever the embedding call fails, `retrieve` catches
the error and returns the empty list; typed failures are never
propagated to the caller. -/
theorem retrieve_swallows_failure (r : RAGRetriever)
    (embed : String → Except EmbedError (List ℝ)) (q : String) (tk : Option Nat)
    (e : EmbedError) (he : embed q = .error e) :
    retrieve r embed q tk = [] := by
  unfold retrieve
  by_cases hq : pyStrip q = ""
  · rw [if_pos hq]
  · rw [if_neg hq, he]

/-- Witness for the amended C1. -/
theorem retrieve_swallows_failure_witness :
    ((fun _ : String => (.error .providerFailure : Except EmbedError (List ℝ))) "x"
      = .error .providerFailure) ∧
    retrieve ⟨freshStore 2, 5, 0⟩ (fun _ => .error .providerFailure) "x" none = [] :=
  ⟨rfl, retrieve_swallows_failure ⟨freshStore 2, 5, 0⟩ _ "x" none .providerFailure rfl⟩

/-! ## C8: normalization -/

theorem sumSq_cons (x : ℝ) (v : List ℝ) : sumSq (x :: v) = x * x + sumSq v := by
  simp [sumSq]

theorem sumSq_nonneg (v : List ℝ) : 0 ≤ sumSq v := by
  induction v with
  | nil => simp [sumSq]
  | cons x v ih => rw [sumSq_cons]; exact add_nonneg (mul_self_nonneg x) ih

theorem l2norm_nonneg (v : List ℝ) : 0 ≤ l2norm v := Real.sqrt_nonneg _

theorem sumSq_map_div (v : List ℝ) (d : ℝ) :
    sumSq (v.map fun x => x / d) = sumSq v / d ^ 2 := by
  induction v with
  | nil => simp [sumSq]
  | cons x v ih =>
    simp only [List.map_cons, sumSq_cons, ih]
    ring

theorem l2norm_map_div (v : List ℝ) (d : ℝ) (hd : 0 ≤ d) :
    l2norm (v.map fun x => x / d) = l2norm v / d := by
  unfold l2norm
  rw [sumSq_map_div, Real.sqrt_div (sumSq_nonneg v), Real.sqrt_sq hd]

theorem l2norm_normalize_of_ge (v : List ℝ) (h : (1e-10 : ℝ) ≤ l2norm v) :
    l2norm (normalize v) = 1 := by
  unfold normalize
  rw [max_eq_left h, l2norm_map_div v _ (l2norm_nonneg v)]
  exact div_self (ne_of_gt (lt_of_lt_of_le (by norm_num) h))

/-- C8 (amended): after any `add` whose input vectors all have norm at
least the `1e-10` floor, every stored vector has L2 norm within `1e-5`
of 1; the property is preserved by `add`, re-established by `clear`, and
the normalization divisor is always positive, so division by zero never
occurs. -/
theorem add_unit_norm_invariant (s : FAISSVectorStore) (embs : List (List ℝ))
    (docs : List Doc) (s' : FAISSVectorStore)
    (hin : ∀ v ∈ embs, (1e-10 : ℝ) ≤ l2norm v)
    (hs : ∀ v ∈ s.vecs, |l2norm v - 1| ≤ 1e-5)
    (hadd : add s embs docs = .ok s') :
    (∀ v ∈ s'.vecs, |l2norm v - 1| ≤ 1e-5) ∧
    (∀ v ∈ (clear s').vecs, |l2norm v - 1| ≤ 1e-5) ∧
    (∀ v : List ℝ, 0 < max (l2norm v) 1e-10) := by
  refine ⟨?_, by simp [clear], fun v => lt_of_lt_of_le (by norm_num) (le_max_right _ _)⟩
  unfold add at hadd
  by_cases h1 : embs.length ≠ docs.length
  · rw [if_pos h1] at hadd
    exact absurd hadd (by simp)
  · rw [if_neg h1] at hadd
    by_cases h2 : embs.length = 0
    · rw [if_pos h2] at hadd
      obtain rfl := Except.ok.inj hadd
      exact hs
    · rw [if_neg h2] at hadd
      obtain rfl := Except.ok.inj hadd
      intro v hv
      rcases List.mem_append.mp hv with hv | hv
      · exact hs v hv
      · obtain ⟨w, hw, rfl⟩ := List.mem_map.mp hv
        rw [l2norm_normalize_of_ge w (hin w hw)]
        norm_num

/-- Witness for the amended C8 at a concrete unit vector. -/
theorem add_unit_norm_invariant_witness :
    (∀ v ∈ [[(1 : ℝ), 0]], (1e-10 : ℝ) ≤ l2norm v) ∧
    (∀ v ∈ (freshStore 2).vecs, |l2norm v - 1| ≤ 1e-5) ∧
    (add (freshStore 2) [[(1 : ℝ), 0]] [⟨"c", "s", []⟩]
      = .ok ⟨2, [normalize [(1 : ℝ), 0]], [⟨"c", "s", []⟩]⟩) ∧
    ((∀ v ∈ (⟨2, [normalize [(1 : ℝ), 0]], [⟨"c", "s", []⟩]⟩ : FAISSVectorStore).vecs,
        |l2norm v - 1| ≤ 1e-5) ∧
      (∀ v ∈ (clear ⟨2, [normalize [(1 : ℝ), 0]], [⟨"c", "s", []⟩]⟩).vecs,
        |l2norm v - 1| ≤ 1e-5) ∧
      (∀ v : List ℝ, 0 < max (l2norm v) 1e-10)) := by
  have h1 : l2norm [(1 : ℝ), 0] = 1 := by
    unfold l2norm
    have hs : sumSq [(1 : ℝ), 0] = 1 := by simp [sumSq]
    rw [hs, Real.sqrt_one]
  have hin : ∀ v ∈ [[(1 : ℝ), 0]], (1e-10 : ℝ) ≤ l2norm v := by
    intro v hv
    simp only [List.mem_singleton] at hv
    rw [hv, h1]
    norm_num
  exact ⟨hin, by simp [freshStore], rfl,
    add_unit_norm_invariant (freshStore 2) [[(1 : ℝ), 0]] [⟨"c", "s", []⟩]
      ⟨2, [normalize [(1 : ℝ), 0]], [⟨"c", "s", []⟩]⟩ hin (by simp [freshStore]) rfl⟩

/-- C8 counterexample: the vector `[1e-20, 0]` is non-zero, yet after
`add` normalizes it with the `1e-10` floor the stored vector has L2 norm
`1e-10`, far outside `1e-5` of 1. -/
theorem c8_normalize_counterexample :
    ([(1e-20 : ℝ), 0] ≠ ([0, 0] : List ℝ)) ∧
    add (freshStore 2) [[(1e-20 : ℝ), 0]] [⟨"c", "s", []⟩]
      = .ok ⟨2, [normalize [(1e-20 : ℝ), 0]], [⟨"c", "s", []⟩]⟩ ∧
    ¬ (|l2norm (normalize [(1e-20 : ℝ), 0]) - 1| ≤ 1e-5) := by
  refine ⟨by norm_num, rfl, ?_⟩
  have hnorm : l2norm [(1e-20 : ℝ), 0] = 1e-20 := by
    unfold l2norm
    have hs : sumSq [(1e-20 : ℝ), 0] = (1e-20 : ℝ) ^ 2 := by
      rw [sumSq_cons]
      simp [sumSq]
      ring
    rw [hs, Real.sqrt_sq (by norm_num)]
  have hmax : max (l2norm [(1e-20 : ℝ), 0]) (1e-10 : ℝ) = 1e-10 := by
    rw [hnorm]
    exact max_eq_right (by norm_num)
  have hval : l2norm (normalize [(1e-20 : ℝ), 0]) = 1e-10 := by
    unfold normalize
    rw [hmax, l2norm_map_div _ _ (by norm_num), hnorm]
    norm_num
  rw [hval, abs_sub_comm, abs_of_nonneg (by norm_num : (0 : ℝ) ≤ 1 - 1e-10)]
  norm_num

/-! ## Chunker helper lemmas -/

theorem string_eq_empty_of_length {s : String} (h : s.length = 0) : s = "" := by
  obtain ⟨data⟩ := s
  have hd : data = [] := List.length_eq_zero.mp h
  rw [hd]

theorem append_ne_empty_left {a b : String} (ha : a ≠ "") : a ++ b ≠ "" := by
  intro h
  apply ha
  have hlen : a.length + b.length = 0 := by
    simpa [String.length_append] using congrArg String.length h
  exact string_eq_empty_of_length (Nat.eq_zero_of_add_eq_zero_right hlen)

theorem append_ne_empty_right {a b : String} (hb : b ≠ "") : a ++ b ≠ "" := by
  intro h
  apply hb
  have hlen : a.length + b.length = 0 := by
    simpa [String.length_append] using congrArg String.length h
  exact string_eq_empty_of_length (Nat.eq_zero_of_add_eq_zero_left hlen)

theorem empty_append_cancel (s : String) : "" ++ s = s := rfl

theorem joinParts_pair (x y : String) : joinParts [x, y] = x ++ " " ++ y := rfl

theorem joinParts_append (y : String) :
    ∀ xs : List String, xs ≠ [] → joinParts (xs ++ [y]) = joinParts xs ++ " " ++ y
  | [], hxs => absurd rfl hxs
  | [p], _ => rfl
  | p :: q :: xs', _ => by
    have ih := joinParts_append y (q :: xs') (by simp)
    show joinParts (p :: (q :: xs') ++ [y]) = joinParts (p :: q :: xs') ++ " " ++ y
    rw [List.cons_append]
    simp only [joinParts, List.append_eq]
    rw [List.cons_append] at ih
    rw [ih]
    simp [String.append_assoc]

theorem pyTakeLast_suffix (s : String) (n : Nat) : ∃ a, s = a ++ pyTakeLast s n := by
  unfold pyTakeLast
  by_cases h : n = 0
  · rw [if_pos h]
    exact ⟨"", rfl⟩
  · rw [if_neg h]
    refine ⟨String.mk (s.data.take (s.data.length - n)), ?_⟩
    have hmk : String.mk (s.data.take (s.data.length - n))
        ++ String.mk (s.data.drop (s.data.length - n))
        = String.mk (s.data.take (s.data.length - n) ++ s.data.drop (s.data.length - n)) := rfl
    rw [hmk, List.take_append_drop]

theorem pyTakeLast_ne_empty (s : String) (n : Nat) (hs : s ≠ "") :
    pyTakeLast s n ≠ "" := by
  unfold pyTakeLast
  by_cases h : n = 0
  · rw [if_pos h]
    exact hs
  · rw [if_neg h]
    intro hcontra
    apply hs
    have hdata : s.data.drop (s.data.length - n) = [] := congrArg String.data hcontra
    have hlen := congrArg List.length hdata
    rw [List.length_drop] at hlen
    simp only [List.length_nil] at hlen
    have hzero : s.data.length = 0 := by omega
    exact string_eq_empty_of_length hzero

theorem overlapTail_suffix (c : TextChunker) (s : String) :
    ∃ a, s = a ++ overlapTailOfContent c s := by
  unfold overlapTailOfContent
  by_cases h : s.length > c.chunkOverlap * 4
  · rw [if_pos h]
    exact pyTakeLast_suffix s _
  · rw [if_neg h]
    exact ⟨"", rfl⟩

theorem overlapTail_ne_empty (c : TextChunker) (s : String) (hs : s ≠ "") :
    overlapTailOfContent c s ≠ "" := by
  unfold overlapTailOfContent
  by_cases h : s.length > c.chunkOverlap * 4
  · rw [if_pos h]
    exact pyTakeLast_ne_empty s _ hs
  · rw [if_neg h]
    exact hs

theorem splitIntoParagraphs_ne_empty (text : String) :
    ∀ p ∈ splitIntoParagraphs text, p ≠ "" := by
  intro p hp
  exact of_decide_eq_true (List.mem_filter.mp hp).2

/-! ## C9: dense chunk indices -/

theorem idx_append (out : List TextChunk) (ch : TextChunk)
    (hch : ch.chunkIndex = out.length)
    (h : out.map (·.chunkIndex) = List.range out.length) :
    (out ++ [ch]).map (·.chunkIndex) = List.range (out ++ [ch]).length := by
  rw [List.map_append, h, List.length_append]
  simp [List.range_succ, hch]

theorem idx_foldl :
    ∀ (scs : List TextChunk) (out : List TextChunk),
      out.map (·.chunkIndex) = List.range out.length →
      ((scs.foldl (fun os ch => os ++ [{ ch with chunkIndex := os.length }]) out).map
          (·.chunkIndex))
        = List.range
            (scs.foldl (fun os ch => os ++ [{ ch with chunkIndex := os.length }]) out).length
  | [], _, h => h
  | ch :: scs, out, h => by
    simp only [List.foldl_cons]
    exact idx_foldl scs _ (idx_append out _ rfl h)

theorem chunkLoop_idx (c : TextChunker) (src : String) (meta : List (String × String)) :
    ∀ (paras acc : List String) (cur : Nat) (out : List TextChunk),
      out.map (·.chunkIndex) = List.range out.length →
      (chunkLoop c src meta paras acc cur out).map (·.chunkIndex)
        = List.range (chunkLoop c src meta paras acc cur out).length
  | [], acc, cur, out, h => by
    simp only [chunkLoop]
    by_cases ha : acc ≠ []
    · rw [if_pos ha]
      exact idx_append out _ rfl h
    · rw [if_neg ha]
      exact h
  | para :: rest, acc, cur, out, h => by
    simp only [chunkLoop]
    by_cases h1 : countTokens c para > c.chunkSize
    · rw [if_pos h1]
      refine chunkLoop_idx c src meta rest [] _ _ (idx_foldl _ _ ?_)
      by_cases ha : acc ≠ []
      · rw [if_pos ha]
        exact idx_append out _ rfl h
      · rw [if_neg ha]
        exact h
    · rw [if_neg h1]
      by_cases h2 : cur + countTokens c para > c.chunkSize
      · rw [if_pos h2]
        refine chunkLoop_idx c src meta rest _ _ _ ?_
        by_cases ha : acc ≠ []
        · rw [if_pos ha]
          exact idx_append out _ rfl h
        · rw [if_neg ha]
          exact h
      · rw [if_neg h2]
        exact chunkLoop_idx c src meta rest _ _ _ h

/-- C9: the chunk indices produced for one source form the dense 0-based
sequence `0, 1, ..., n-1` (including chunks produced through the
oversized-paragraph sentence-splitting path), so chunk identities
(source, index) are pairwise distinct within a document. -/
theorem chunk_indices_dense (c : TextChunker) (text source : String)
    (meta : List (String × String)) :
    (chunkText c text source meta).map (·.chunkIndex)
      = List.range (chunkText c text source meta).length ∧
    (chunkText c text source meta).Pairwise
      (fun a b => (a.source, a.chunkIndex) ≠ (b.source, b.chunkIndex)) := by
  have hmain : (chunkText c text source meta).map (·.chunkIndex)
      = List.range (chunkText c text source meta).length := by
    unfold chunkText
    by_cases ht : pyStrip text = ""
    · rw [if_pos ht]
      rfl
    · rw [if_neg ht]
      exact chunkLoop_idx c source meta _ [] 0 [] rfl
  refine ⟨hmain, ?_⟩
  have hnd : ((chunkText c text source meta).map (·.chunkIndex)).Nodup := by
    rw [hmain]
    exact List.nodup_range _
  have hpw : (chunkText c text source meta).Pairwise
      (fun a b => a.chunkIndex ≠ b.chunkIndex) := List.pairwise_map.mp hnd
  refine hpw.imp ?_
  intro a b hne hEq
  exact hne (congrArg Prod.snd hEq)

/-! ## C7: overlap seeding -/

theorem chain_append_one (c : TextChunker) (out : List TextChunk) (ch : TextChunk)
    (hchain : List.Chain' (OverlapChain c) out)
    (hlast : ∀ hne : out ≠ [], OverlapChain c (out.getLast hne) ch) :
    List.Chain' (OverlapChain c) (out ++ [ch]) := by
  rw [List.chain'_append]
  refine ⟨hchain, List.chain'_singleton ch, ?_⟩
  intro x hx y hy
  cases out with
  | nil => simp at hx
  | cons a l =>
    have hne : a :: l ≠ [] := by simp
    rw [List.getLast?_eq_getLast _ hne] at hx
    simp only [Option.mem_def, Option.some.injEq] at hx
    simp only [List.head?_cons, Option.mem_def, Option.some.injEq] at hy
    rw [← hx, ← hy]
    exact hlast hne

theorem inv5_extend (c : TextChunker) (out : List TextChunk) (acc : List String)
    (para : String) (hacc : acc ≠ [])
    (h5 : ∀ hne : out ≠ [],
      ∃ t, joinParts acc = overlapTailOfContent c ((out.getLast hne).content) ++ t) :
    ∀ hne : out ≠ [],
      ∃ t, joinParts (acc ++ [para])
        = overlapTailOfContent c ((out.getLast hne).content) ++ t := by
  intro hne
  obtain ⟨t, ht⟩ := h5 hne
  refine ⟨t ++ " " ++ para, ?_⟩
  rw [joinParts_append para acc hacc, ht]
  simp [String.append_assoc]

theorem joinParts_snoc_ne_empty (acc : List String) (para : String) (hpara : para ≠ "") :
    joinParts (acc ++ [para]) ≠ "" := by
  cases acc with
  | nil => simpa [joinParts] using hpara
  | cons a l =>
    rw [joinParts_append para (a :: l) (by simp)]
    exact append_ne_empty_right hpara

theorem chunkLoop_chain (c : TextChunker) (src : String) (meta : List (String × String)) :
    ∀ (paras acc : List String) (cur : Nat) (out : List TextChunk),
      (∀ p ∈ paras, countTokens c p ≤ c.chunkSize) →
      (∀ p ∈ paras, p ≠ "") →
      (acc = [] → out = [] ∧ cur = 0) →
      (acc ≠ [] → joinParts acc ≠ "") →
      (∀ hne : out ≠ [],
        ∃ t, joinParts acc = overlapTailOfContent c ((out.getLast hne).content) ++ t) →
      (∀ ch ∈ out, ch.content ≠ "") →
      List.Chain' (OverlapChain c) out →
      (∀ ch ∈ chunkLoop c src meta paras acc cur out, ch.content ≠ "") ∧
      List.Chain' (OverlapChain c) (chunkLoop c src meta paras acc cur out)
  | [], acc, cur, out, _, _, _, h4, h5, h6, h7 => by
    simp only [chunkLoop]
    by_cases ha : acc ≠ []
    · rw [if_pos ha]
      constructor
      · intro ch hch
        rcases List.mem_append.mp hch with h | h
        · exact h6 ch h
        · simp only [List.mem_singleton] at h
          subst h
          exact h4 ha
      · refine chain_append_one c out _ h7 ?_
        intro hne
        exact h5 hne
    · rw [if_neg ha]
      exact ⟨h6, h7⟩
  | para :: rest, acc, cur, out, hp, hnep, h3, h4, h5, h6, h7 => by
    have hpara_le : countTokens c para ≤ c.chunkSize := hp para (List.mem_cons_self _ _)
    have hpara_ne : para ≠ "" := hnep para (List.mem_cons_self _ _)
    have hp' : ∀ p ∈ rest, countTokens c p ≤ c.chunkSize :=
      fun p h => hp p (List.mem_cons_of_mem _ h)
    have hnep' : ∀ p ∈ rest, p ≠ "" := fun p h => hnep p (List.mem_cons_of_mem _ h)
    simp only [chunkLoop]
    rw [if_neg (not_lt.mpr hpara_le)]
    by_cases h2 : cur + countTokens c para > c.chunkSize
    · have ha : acc ≠ [] := by
        intro hacc
        obtain ⟨_, hcur⟩ := h3 hacc
        rw [hcur, Nat.zero_add] at h2
        exact absurd h2 (not_lt.mpr hpara_le)
      rw [if_pos h2, if_pos ha]
      have hgov : getOverlapText c acc = overlapTailOfContent c (joinParts acc) := by
        simp only [getOverlapText]
        rw [if_neg ha]
      have hov : getOverlapText c acc ≠ "" := by
        rw [hgov]
        exact overlapTail_ne_empty c _ (h4 ha)
      rw [if_pos hov]
      apply chunkLoop_chain c src meta rest _ _ _ hp' hnep'
      · intro hacc1
        exact absurd hacc1 (by simp)
      · intro _
        rw [joinParts_pair]
        exact append_ne_empty_left (append_ne_empty_left hov)
      · intro hne1
        have hlast : (out ++ [createChunk c acc src out.length meta]).getLast hne1
            = createChunk c acc src out.length meta := List.getLast_concat _
        refine ⟨" " ++ para, ?_⟩
        rw [joinParts_pair, hgov, hlast]
        simp only [String.append_assoc]
        rfl
      · intro ch hch
        rcases List.mem_append.mp hch with h | h
        · exact h6 ch h
        · simp only [List.mem_singleton] at h
          subst h
          exact h4 ha
      · refine chain_append_one c out _ h7 ?_
        intro hne
        exact h5 hne
    · rw [if_neg h2]
      apply chunkLoop_chain c src meta rest _ _ _ hp' hnep'
      · intro hacc1
        exact absurd hacc1 (by simp)
      · intro _
        exact joinParts_snoc_ne_empty acc para hpara_ne
      · intro hne
        have ha : acc ≠ [] := fun hacc => hne (h3 hacc).1
        exact inv5_extend c out acc para ha h5 hne
      · exact h6
      · exact h7

/-- C7 (amended): when no paragraph alone exceeds the chunk size, every
chunk's content is non-empty and has a non-empty overlap tail (the
Python slice of its last `chunk_overlap * 4` characters; the whole
content when the content is no longer than that, and also when
`chunk_overlap = 0`, since `s[-0:]` is the whole string) which is a
suffix of that content, and every chunk after the first begins with the
overlap tail of the immediately preceding chunk's content. -/
theorem chunk_overlap_seeding (c : TextChunker) (text source : String)
    (meta : List (String × String))
    (hp : ∀ p ∈ splitIntoParagraphs text, countTokens c p ≤ c.chunkSize) :
    (∀ ch ∈ chunkText c text source meta,
      ch.content ≠ "" ∧ overlapTailOfContent c ch.content ≠ "" ∧
      ∃ a, ch.content = a ++ overlapTailOfContent c ch.content) ∧
    List.Chain' (OverlapChain c) (chunkText c text source meta) := by
  unfold chunkText
  by_cases ht : pyStrip text = ""
  · rw [if_pos ht]
    exact ⟨by simp, List.chain'_nil⟩
  · rw [if_neg ht]
    obtain ⟨h6, h7⟩ := chunkLoop_chain c source meta (splitIntoParagraphs text) [] 0 []
      hp (splitIntoParagraphs_ne_empty text) (fun _ => ⟨rfl, rfl⟩)
      (fun h => absurd rfl h) (fun hne => absurd rfl hne) (by simp) List.chain'_nil
    refine ⟨fun ch hch => ⟨h6 ch hch, overlapTail_ne_empty c _ (h6 ch hch),
      overlapTail_suffix c _⟩, h7⟩

/-- Witness for the amended C7 on a two-paragraph text whose paragraphs
all fit the chunk size. -/
theorem chunk_overlap_seeding_witness :
    (∀ p ∈ splitIntoParagraphs "ab\n\ncd",
      countTokens ⟨15, 2⟩ p ≤ (⟨15, 2⟩ : TextChunker).chunkSize) ∧
    ((∀ ch ∈ chunkText ⟨15, 2⟩ "ab\n\ncd" "s" [],
      ch.content ≠ "" ∧ overlapTailOfContent ⟨15, 2⟩ ch.content ≠ "" ∧
      ∃ a, ch.content = a ++ overlapTailOfContent ⟨15, 2⟩ ch.content) ∧
    List.Chain' (OverlapChain ⟨15, 2⟩) (chunkText ⟨15, 2⟩ "ab\n\ncd" "s" [])) :=
  ⟨by decide, chunk_overlap_seeding ⟨15, 2⟩ "ab\n\ncd" "s" [] (by decide)⟩

/-- C7 counterexample: with `chunk_overlap = 0`, the claimed overlap tail
(the last `0 * 4 = 0` characters) is empty, but the code's
`full_text[-0:]` slice returns the whole flushed text, so the second
chunk is seeded with the whole first chunk rather than with the new
paragraph alone. -/
theorem c7_overlap_counterexample :
    getOverlapText ⟨3, 0⟩ ["aaaaaaaa"] = "aaaaaaaa" ∧
    specOverlapTail ⟨3, 0⟩ "aaaaaaaa" = "" ∧
    (chunkText ⟨3, 0⟩ "aaaaaaaa\n\nbbbbbbbb" "s" []).map (·.content)
      = ["aaaaaaaa", "aaaaaaaa bbbbbbbb"] ∧
    (["aaaaaaaa", "aaaaaaaa bbbbbbbb"] : List String) ≠ ["aaaaaaaa", "bbbbbbbb"] := by
  refine ⟨rfl, rfl, by decide, by decide⟩

end ThriveBot
